import Mathlib

/-!
Verification of the tear-film analyzer's image-quantification core

This file gives a shallow embedding, in Lean 4, of the image-analysis core of
the tear-film analyzer (`app.py` and `utils/image_processing.py`) and settles
a list of claims about it.

Conventions of the embedding:

* An image is a pair of dimensions together with a pixel function
  `ℤ × ℤ → ℕ × ℕ × ℕ` (8-bit R,G,B channels).
* A binary mask (a 2-D boolean numpy array of shape `(h, w)`) is embedded as a
  function `ℤ × ℤ → Bool` that is `false` outside the `h × w` window.  This
  matches numpy/scipy semantics: reading a neighbour that falls outside the
  array under `border_value=0` reads `False`.
* numpy float arithmetic is modelled in `ℚ`.  All concrete inputs used in
  counterexamples are chosen far from comparison boundaries, so the modelled
  comparisons agree with the IEEE-754 evaluations of the source.
* `scipy.ndimage.binary_closing` / `binary_opening` use the default
  structuring element (the 3×3 cross, `generate_binary_structure(2, 1)`),
  one iteration, and `border_value=0` for both of their sub-operations; the
  embedding `closingB` / `openingB` mirrors exactly that.
* `scipy.ndimage.label` uses the default structure, i.e. 4-connectivity; the
  embedding computes connected components by a saturating breadth-first
  closure (`compo`), which is proved below (`mem_compo_iff_reaches`) to agree
  with relational reachability.
-/

namespace TearFilm

/-- A pixel position (row, column). -/
abbrev Pos := ℤ × ℤ

/-- A binary mask: a boolean numpy array of shape `(h, w)`, embedded as its
indicator function, `false` outside the window. -/
abbrev Mask := Pos → Bool

/-- Whether the position `p` lies inside the `h × w` array window. -/
def inWin (h w : ℕ) (p : Pos) : Bool :=
  decide (0 ≤ p.1 ∧ p.1 < (h : ℤ) ∧ 0 ≤ p.2 ∧ p.2 < (w : ℤ))

/-- The window of an `h × w` array as a finite set of positions. -/
def winF (h w : ℕ) : Finset Pos :=
  Finset.Icc 0 ((h : ℤ) - 1) ×ˢ Finset.Icc 0 ((w : ℤ) - 1)

/-- The mask whose `true` pixels are exactly the members of the list `l`. -/
def maskOfList (l : List Pos) : Mask := fun p => decide (p ∈ l)

/-- The number of `true` pixels of a mask inside the window (`np.sum(mask)`
for a boolean array of shape `(h, w)`). -/
def maskCount (h w : ℕ) (m : Mask) : ℕ :=
  ((winF h w).filter (fun p => m p = true)).card

/-- The default scipy structuring element `generate_binary_structure(2, 1)`:
the 3×3 cross, given as the list of its offsets. -/
def cross : List Pos := [(0, 0), (1, 0), (-1, 0), (0, 1), (0, -1)]

/-- Binary dilation (`scipy.ndimage.binary_dilation`) with the cross structuring element and
`border_value=0`, on an array of shape `(h, w)`: a pixel of the output array
is set iff some cross-neighbour inside the mask hits it.  (The structuring
element is symmetric, so mirroring it is a no-op.) -/
def dilateB (h w : ℕ) (m : Mask) : Mask := fun p =>
  inWin h w p && cross.any (fun b => m (p.1 - b.1, p.2 - b.2))

/-- Binary erosion (`scipy.ndimage.binary_erosion`) with the cross structuring element and
`border_value=0`: a pixel survives iff all its cross-neighbours are `true`;
a neighbour outside the window reads the border value `False`, which for a
mask that is `false` outside the window is just `m`. -/
def erodeB (m : Mask) : Mask := fun p =>
  cross.all (fun b => m (p.1 + b.1, p.2 + b.2))

/-- Binary closing (`scipy.ndimage.binary_closing`) with default arguments: dilation followed
by erosion, both with `border_value=0` (`app.py` line 232). -/
def closingB (h w : ℕ) (m : Mask) : Mask := erodeB (dilateB h w m)

/-- Binary opening (`scipy.ndimage.binary_opening`) with default arguments: erosion followed
by dilation, both with `border_value=0` (`app.py` line 233). -/
def openingB (h w : ℕ) (m : Mask) : Mask := dilateB h w (erodeB m)

/-! Section: The grade mapper (`app.py` lines 280–294) -/

/-- The Oxford-scale grade ladder of `analyze_fluorescein_staining`
(`app.py` lines 280–294): the staining grade as a function of the staining
percentage.  `0.5` is written `1/2 : ℚ`. -/
def stainingGrade (p : ℚ) : String :=
  if p > 15 then "Severe (Grade IV-V)"
  else if p > 8 then "Moderate (Grade III)"
  else if p > 3 then "Mild (Grade II)"
  else if p > 1/2 then "Trace (Grade I)"
  else "None (Grade 0)"

/-- The interpretation string attached to each grade bucket by the same
ladder (`app.py` lines 280–294). -/
def stainingInterpretation (p : ℚ) : String :=
  if p > 15 then "Significant corneal epithelial damage - multiple coalescing areas"
  else if p > 8 then "Moderate epithelial disruption - multiple discrete areas"
  else if p > 3 then "Mild epithelial changes - few discrete spots"
  else if p > 1/2 then "Minimal epithelial staining - sparse spots"
  else "No significant epithelial staining detected"

/-! Section: The interference-interpretation lookup
(`utils/image_processing.py` lines 72–81) -/

/-- The lookup `get_interference_interpretation`: a dictionary lookup with default
`"Unable to interpret"`, embedded as a chain of equality tests (the five
keys are distinct, so the order is immaterial). -/
def getInterferenceInterpretation (grade : String) : String :=
  if grade = "Excellent" then
    "Normal lipid layer thickness and spread - healthy tear film"
  else if grade = "Good" then
    "Mild lipid layer abnormalities - minimal evaporation"
  else if grade = "Fair" then
    "Moderate lipid layer disruption - increased evaporation likely"
  else if grade = "Poor" then
    "Significant lipid layer deficiency - high evaporation risk"
  else if grade = "Very Poor" then
    "Severe lipid layer abnormalities - marked evaporative dry eye"
  else "Unable to interpret"

/-! Section: The region quantifier (`app.py` lines 244–252) -/

/-- The quantification step of `analyze_fluorescein_staining` (`app.py`
lines 244–252): `staining_percentage = staining_pixels / total_corneal_pixels
* 100` when the corneal (ROI) pixel count is positive, and `0` otherwise.
Note the numerator counts the whole staining mask while the denominator
counts only the corneal region. -/
def quantifyPercentage (h w : ℕ) (staining corneal : Mask) : ℚ :=
  if 0 < maskCount h w corneal then
    100 * (maskCount h w staining : ℚ) / (maskCount h w corneal : ℚ)
  else 0

/-! Section: Images and colour-space projections -/

/-- An RGB image: dimensions plus an 8-bit pixel function (R, G, B). -/
structure RGBImage where
  height : ℕ
  width : ℕ
  px : Pos → ℕ × ℕ × ℕ

/-- The red channel value of a pixel. -/
def chR (img : RGBImage) (p : Pos) : ℕ := (img.px p).1

/-- The green channel value of a pixel. -/
def chG (img : RGBImage) (p : Pos) : ℕ := (img.px p).2.1

/-- The blue channel value of a pixel. -/
def chB (img : RGBImage) (p : Pos) : ℕ := (img.px p).2.2

/-- Three times the intensity of a pixel: the channel sum `r + g + b`.
The source computes `intensity = (r + g + b) / 3` in float (`app.py` line
210); the embedding carries the exact value scaled by 3 so that all
threshold comparisons stay in `ℕ` (every comparison below is scaled
accordingly). -/
def sum3 (img : RGBImage) (p : Pos) : ℕ := chR img p + chG img p + chB img p

/-- Insert a value into an ascending list (helper for `sortAscN`). -/
def insertAscN (x : ℕ) : List ℕ → List ℕ
  | [] => [x]
  | y :: ys => if x ≤ y then x :: y :: ys else y :: insertAscN x ys

/-- Ascending insertion sort on naturals (the sort performed internally by
`np.percentile`). -/
def sortAscN : List ℕ → List ℕ
  | [] => []
  | x :: xs => insertAscN x (sortAscN xs)

/-- One hundred times `np.percentile(vals, q)` with the default linear
interpolation, for an integer percentile rank `q`.  `np.percentile` sorts
the values and returns `v[lo] + frac * (v[hi] - v[lo])`, where
`pos = q * (n - 1) / 100`, `lo = floor(pos)`, `hi = ceil(pos)` and
`frac = pos - lo`.  Writing `pos100 = q * (n - 1)`, `lo = pos100 / 100` and
`r = pos100 % 100`, this is exactly `((100 - r) * v[lo] + r * v[hi]) / 100`;
the embedding returns the numerator, i.e. the percentile scaled by 100. -/
def percentile100 (vals : List ℕ) (q : ℕ) : ℕ :=
  let s := sortAscN vals
  let pos100 := q * (vals.length - 1)
  let lo := pos100 / 100
  let r := pos100 % 100
  (100 - r) * s.getD lo 0 + r * s.getD (if r = 0 then lo else lo + 1) 0

/-- The positions of an `h × w` array in row-major (`ravel`) order. -/
def winList (h w : ℕ) : List Pos :=
  (List.range (h * w)).map (fun k => (((k / w : ℕ) : ℤ), ((k % w : ℕ) : ℤ)))

/-- The list of channel sums (3× intensity) of all pixels of the image,
the multiset over which `np.percentile(intensity, q)` is computed. -/
def sumsList (img : RGBImage) : List ℕ :=
  (winList img.height img.width).map (sum3 img)

/-- The threshold `np.percentile(intensity, q)` scaled by 300 (= `percentile100` of the
3×-scaled intensities). -/
def intensityPercentile (img : RGBImage) (q : ℕ) : ℕ :=
  percentile100 (sumsList img) q

/-! Section: The primary fluorescein-staining masks (`app.py` lines 212–245) -/

/-- Pupil mask with the threshold as an explicit argument:
`intensity < t/300` (i.e. `100 * (3·intensity) < t`). -/
def pupilMaskT (img : RGBImage) (t : ℕ) : Mask := fun p =>
  inWin img.height img.width p && decide (100 * sum3 img p < t)

/-- The pupil mask (`app.py` lines 214–215): pixels whose intensity lies
strictly below the 10th percentile of the image's intensities. -/
def pupilMask (img : RGBImage) : Mask :=
  pupilMaskT img (intensityPercentile img 10)

/-- Sclera mask with the threshold as an explicit argument. -/
def scleraMaskT (img : RGBImage) (t : ℕ) : Mask := fun p =>
  inWin img.height img.width p && decide (100 * sum3 img p > t)

/-- The sclera mask (`app.py` lines 218–219): pixels whose intensity lies
strictly above the 85th percentile. -/
def scleraMask (img : RGBImage) : Mask :=
  scleraMaskT img (intensityPercentile img 85)

/-- Staining candidates with the three percentile thresholds as explicit
arguments.  `green_dominance = g / (r + b + 1) > 1.2` is the exact integer
comparison `5 * g > 6 * (r + b + 1)`. -/
def stainingCandidatesT (img : RGBImage) (t60 t10 t85 : ℕ) : Mask := fun p =>
  inWin img.height img.width p &&
    decide (100 * sum3 img p > t60) &&
    decide (5 * chG img p > 6 * (chR img p + chB img p + 1)) &&
    !pupilMaskT img t10 p &&
    !scleraMaskT img t85 p

/-- The staining-candidate mask (`app.py` lines 223–229): intensity above
the 60th percentile, green dominance above 1.2, and neither pupil nor
sclera. -/
def stainingCandidates (img : RGBImage) : Mask :=
  stainingCandidatesT img (intensityPercentile img 60)
    (intensityPercentile img 10) (intensityPercentile img 85)

/-- The corneal region-of-interest mask (`app.py` line 245):
`~pupil_mask & ~sclera_mask` over the image array. -/
def cornealMask (img : RGBImage) : Mask := fun p =>
  inWin img.height img.width p && !pupilMask img p && !scleraMask img p

/-! Section: Connected components (`scipy.ndimage.label`) -/

/-- The 4-neighbourhood offsets — `scipy.ndimage.label`'s default structure
(`generate_binary_structure(2, 1)`, i.e. squared connectivity one). -/
def delta4 : List Pos := [(1, 0), (-1, 0), (0, 1), (0, -1)]

/-- The 8-neighbourhood offsets (full 3×3 connectivity).  This is the
connectivity named by the specification ("8-adjacency"); the source's
`ndimage.label` calls use the default 4-connectivity instead. -/
def delta8 : List Pos :=
  [(1, 0), (-1, 0), (0, 1), (0, -1), (1, 1), (1, -1), (-1, 1), (-1, -1)]

/-- The neighbours of a position under a list of offsets. -/
def nbrsOf (ds : List Pos) (p : Pos) : List Pos :=
  ds.map (fun b => (p.1 + b.1, p.2 + b.2))

/-- One step of the breadth-first closure: add every neighbour of the
current set that lies in the mask. -/
def growStep (ds : List Pos) (m : Mask) (s : Finset Pos) : Finset Pos :=
  s ∪ (s.biUnion (fun p => (nbrsOf ds p).toFinset)).filter (fun q => m q = true)

/-- The connected component of `p` in the mask `m`: the breadth-first
closure saturated after `h*w` steps (enough steps to stabilise, by
`mem_compo_iff_reaches` below this agrees with relational reachability).
This is the set of pixels sharing `p`'s label in `scipy.ndimage.label`. -/
def compo (ds : List Pos) (h w : ℕ) (m : Mask) (p : Pos) : Finset Pos :=
  (growStep ds m)^[h * w] {p}

/-- The small-component removal step (`app.py` lines 236–242): label the
mask (4-connectivity), compute `component_sizes = np.bincount(...)`, and
zero every pixel whose component's size is below
`min_size = max(10, size * 0.001)` where `size = h*w`.  A pixel is kept iff
its own component's size is at least `min_size`; multiplying the comparison
by 1000 keeps it in `ℕ`: `1000 * min_size = max(10000, h*w)`. -/
def removeSmall (h w : ℕ) (m : Mask) : Mask := fun p =>
  m p && decide (max 10000 (h * w) ≤ 1000 * (compo delta4 h w m p).card)

/-- The number of connected components of the `true` pixels of a mask
(`num_features` of `scipy.ndimage.label` for `ds = delta4`; the
specification's 8-connected count for `ds = delta8`). -/
def componentCount (ds : List Pos) (h w : ℕ) (m : Mask) : ℕ :=
  (((winF h w).filter (fun p => m p = true)).image (compo ds h w m)).card

/-- Adjacency of two mask pixels: both are `true` and they are neighbours
under the offset list. -/
def adjacent (ds : List Pos) (m : Mask) (a b : Pos) : Prop :=
  m a = true ∧ m b = true ∧ b ∈ nbrsOf ds a

/-- Reachability inside a mask: the reflexive-transitive closure of
adjacency. -/
def reaches (ds : List Pos) (m : Mask) : Pos → Pos → Prop :=
  Relation.ReflTransGen (adjacent ds m)

/-! Section: The mask-refinement pipeline and its metrics -/

/-- The full mask-refinement step of `analyze_fluorescein_staining`
(`app.py` lines 231–242): binary closing, then binary opening, then
small-component removal. -/
def refineMask (h w : ℕ) (m : Mask) : Mask :=
  removeSmall h w (openingB h w (closingB h w m))

/-- The refined staining mask of the image (`staining_mask` after `app.py`
line 242). -/
def refinedStainingMask (img : RGBImage) : Mask :=
  refineMask img.height img.width (stainingCandidates img)

/-- The staining percentage (`app.py` lines 246–252): the refined staining
mask's pixel count over the corneal pixel count, times 100 (or 0 when the
corneal region is empty). -/
def stainingPercentage (img : RGBImage) : ℚ :=
  quantifyPercentage img.height img.width (refinedStainingMask img)
    (cornealMask img)

/-- The mask `valid_staining = staining_mask & corneal_area_mask`
(`app.py` line 261). -/
def validStaining (img : RGBImage) : Mask := fun p =>
  refinedStainingMask img p && cornealMask img p

/-- The count `num_lesions` (`app.py` line 277): the component count of
`ndimage.label(valid_staining)`, i.e. the number of 4-connected components
of the valid staining mask. -/
def lesionCount (img : RGBImage) : ℕ :=
  componentCount delta4 img.height img.width (validStaining img)

/-! Section: The overlay renderer (`app.py` lines 254–274) -/

/-- The blend `np.clip(v * (a/10) + c * (b/10), 0, 255).astype(np.uint8)` for channel
values `v, c ∈ [0,255]` and tenth-valued weights (0.4/0.6 and 0.7/0.3 in the
source): the exact rational value is `(a*v + b*c)/10`, which is nonnegative,
and the uint8 cast truncates, giving the `ℕ` floor division.  (The model is
the exact rational semantics of the float expression; the float evaluation
can differ by one ulp, which is immaterial to the claims settled here.) -/
def blend10 (a b v c : ℕ) : ℕ := min 255 ((a * v + b * c) / 10)

/-- The rendered output pixel of `analyze_fluorescein_staining` (`app.py`
lines 255–272): valid staining pixels are blended 0.4/0.6 toward the pink
highlight `[255, 100, 100]`; then pupil-or-sclera pixels are blended 0.7/0.3
toward the gray `[100, 100, 100]` (the two sets are disjoint since valid
staining lies inside the corneal mask); all other pixels keep their value. -/
def renderPixel (img : RGBImage) (p : Pos) : ℕ × ℕ × ℕ :=
  if validStaining img p then
    (blend10 4 6 (chR img p) 255, blend10 4 6 (chG img p) 100,
      blend10 4 6 (chB img p) 100)
  else if pupilMask img p || scleraMask img p then
    (blend10 7 3 (chR img p) 100, blend10 7 3 (chG img p) 100,
      blend10 7 3 (chB img p) 100)
  else img.px p

/-! Section: The fallback analysis
(`simple_fluorescein_analysis_improved`, `app.py` lines 310–361) -/

/-- The fallback's per-pixel brightness value, scaled by 3.  The source
computes `brightness = (r + g + b) / 3` without promoting the uint8
arrays to float (`app.py` line 317), so the sum wraps modulo 256 before the
float division by 3. -/
def fbSum (img : RGBImage) (p : Pos) : ℕ := (sum3 img p) % 256

/-- The fallback's brightness values over the image. -/
def fbSumsList (img : RGBImage) : List ℕ :=
  (winList img.height img.width).map (fbSum img)

/-- The fallback percentile of the brightness values, scaled by 300. -/
def fbPercentile (img : RGBImage) (q : ℕ) : ℕ :=
  percentile100 (fbSumsList img) q

/-- The fallback's corneal mask (`app.py` lines 320–323):
`(brightness > percentile(brightness, 15)) & (brightness < percentile(brightness, 80))`. -/
def fbCornealMask (img : RGBImage) : Mask := fun p =>
  inWin img.height img.width p &&
    decide (100 * fbSum img p > fbPercentile img 15) &&
    decide (100 * fbSum img p < fbPercentile img 80)

/-- The fallback's staining mask (`app.py` line 326):
`(brightness > percentile(brightness, 70)) & corneal_area`. -/
def fbStainingMask (img : RGBImage) : Mask := fun p =>
  decide (100 * fbSum img p > fbPercentile img 70) && fbCornealMask img p

/-- The fallback staining percentage (`app.py` lines 328–331), with the
same guard against an empty corneal area as the primary path. -/
def fbPercentage (img : RGBImage) : ℚ :=
  quantifyPercentage img.height img.width (fbStainingMask img)
    (fbCornealMask img)

/-- The fallback's `lesion_count = int(staining_percentage / 2)` (`app.py`
line 355): `int()` truncates toward zero and the percentage
`100 * s / c ≥ 0`, so this is `⌊50 * s / c⌋`, i.e. the `ℕ` floor division
`(50 * s) / c` of the mask counts (0 when the corneal count is 0). -/
def fbLesionCount (img : RGBImage) : ℕ :=
  let c := maskCount img.height img.width (fbCornealMask img)
  let s := maskCount img.height img.width (fbStainingMask img)
  if 0 < c then (50 * s) / c else 0

/-- The fallback's grade ladder (`app.py` lines 344–349). -/
def fbGrade (p : ℚ) : String :=
  if p > 10 then "Moderate to Severe"
  else if p > 5 then "Mild"
  else "Trace to None"

/-- The fallback's rendered pixel (`app.py` lines 334–339): staining pixels
are overwritten with `[255, 100, 100]`; then non-corneal pixels are halved
(uint8 floor division by 2); the two sets are disjoint since the fallback
staining mask lies inside its corneal mask. -/
def fbRenderPixel (img : RGBImage) (p : Pos) : ℕ × ℕ × ℕ :=
  if fbStainingMask img p then (255, 100, 100)
  else if !fbCornealMask img p then
    (chR img p / 2, chG img p / 2, chB img p / 2)
  else img.px p

/-! Section: Analysis results and the fallback control flow
(`app.py` lines 296–308, 351–361) -/

/-- The metrics record returned by either staining analysis (the
`processed_image` entry is the rendered pixel function, kept separately by
`renderPixel` / `fbRenderPixel`; the record carries the numeric/string
fields compared by the claims). -/
structure StainingResult where
  grade : String
  percentage : ℚ
  lesions : ℕ
  interpretation : String
deriving DecidableEq

/-- The primary result record (`app.py` lines 296–303). -/
def primaryResult (img : RGBImage) : StainingResult :=
  { grade := stainingGrade (stainingPercentage img)
    percentage := stainingPercentage img
    lesions := lesionCount img
    interpretation := stainingInterpretation (stainingPercentage img) }

/-- The fallback result record (`app.py` lines 351–358). -/
def fallbackResult (img : RGBImage) : StainingResult :=
  { grade := fbGrade (fbPercentage img)
    percentage := fbPercentage img
    lesions := fbLesionCount img
    interpretation := "Basic staining analysis (pupil and sclera excluded)" }

/-- An uploaded image as the analysis functions see it: either a decodable
3-channel RGB image, or anything else (e.g. a single-channel array), on
which the channel indexing `img_array[:,:,0]` of both analyses raises. -/
inductive UploadedImage where
  | rgb (img : RGBImage)
  | nonRGB

/-- The error raised inside an analysis attempt. -/
inductive AnalysisError where
  | notThreeChannel
deriving DecidableEq

/-- The body of the `try:` block of `analyze_fluorescein_staining`: succeeds
with the primary result on an RGB image, raises otherwise. -/
def primaryAnalysis : UploadedImage → Except AnalysisError StainingResult
  | .rgb img => .ok (primaryResult img)
  | .nonRGB => .error .notThreeChannel

/-- The body of the `try:` block of
`simple_fluorescein_analysis_improved`: succeeds with the fallback result on
an RGB image, raises otherwise. -/
def fallbackAnalysis : UploadedImage → Except AnalysisError StainingResult
  | .rgb img => .ok (fallbackResult img)
  | .nonRGB => .error .notThreeChannel

/-- The top-level control flow of `analyze_fluorescein_staining` with its
exception handlers (`app.py` lines 201–308 and 359–361): on a primary
failure the fallback is attempted exactly once (after `st.error` logging);
if the fallback also fails, its handler returns `None` — no exception
escapes to the caller. -/
def analyzeFluoresceinStaining (i : UploadedImage) : Option StainingResult :=
  match primaryAnalysis i with
  | .ok r => some r
  | .error _ =>
    match fallbackAnalysis i with
    | .ok r => some r
    | .error _ => none

/-! Section: The tear-film interference analysis (`app.py` lines 142–199) -/

/-- The sum of all channel values of the image (numerator of
`np.mean(img_array)`). -/
def channelTotal (img : RGBImage) : ℕ :=
  ∑ p ∈ winF img.height img.width, sum3 img p

/-- The sum of squares of all channel values (used for the variance). -/
def channelSqTotal (img : RGBImage) : ℕ :=
  ∑ p ∈ winF img.height img.width,
    ((chR img p) ^ 2 + (chG img p) ^ 2 + (chB img p) ^ 2)

/-- The mean `brightness = np.mean(img_array)` as an exact rational:
the channel total over the number of channel samples `3*h*w`. -/
def brightnessQ (img : RGBImage) : ℚ :=
  mkRat (channelTotal img) (3 * img.height * img.width)

/-- The condition `contrast < 30` of the source, where
`contrast = np.std(img_array)`.  With `N = 3*h*w` samples, `S` their sum
and `Q` their sum of squares, `std < 30 ↔ var < 900 ↔ N*Q - S^2 < 900*N^2`
exactly (std and var are nonnegative), which keeps the test in `ℤ`. -/
def lowContrast (img : RGBImage) : Prop :=
  (3 * img.height * img.width : ℤ) * channelSqTotal img
      - (channelTotal img : ℤ) ^ 2
    < 900 * (3 * img.height * img.width : ℤ) ^ 2

instance (img : RGBImage) : Decidable (lowContrast img) := by
  unfold lowContrast; infer_instance

/-- The per-channel totals (numerators of `np.mean(r)`, `np.mean(g)`,
`np.mean(b)`; the means share the denominator `h*w`, so mean comparisons
are total comparisons). -/
def redTotal (img : RGBImage) : ℕ := ∑ p ∈ winF img.height img.width, chR img p

/-- Green channel total. -/
def greenTotal (img : RGBImage) : ℕ := ∑ p ∈ winF img.height img.width, chG img p

/-- Blue channel total. -/
def blueTotal (img : RGBImage) : ℕ := ∑ p ∈ winF img.height img.width, chB img p

/-- The draw `random.uniform(a, b)` is `a + (b-a) * u` where `u = random.random()`
is the PRNG draw in `[0, 1)`; the draw is the model's explicit argument. -/
def uniformDraw (a b : ℚ) (u : ℚ) : ℚ := a + (b - a) * u

/-- The draw `random.randint(lo, hi)` returns an integer of `[lo, hi]` determined by
the PRNG state; the model maps an explicit integer draw `z` into the range. -/
def randintDraw (lo hi : ℤ) (z : ℤ) : ℤ := lo + z.emod (hi - lo + 1)

/-- The record returned by `analyze_tear_film_pattern`. -/
structure TearFilmResult where
  grade : String
  coverage : ℚ
  qualityScore : ℤ
  interpretation : String
deriving DecidableEq

/-- The function `analyze_tear_film_pattern` (`app.py` lines 142–182), with the PRNG
draws made explicit: `u` is the uniform draw and `z` the randint draw
consumed by whichever branch runs.  (The `except` arm of the source, which
fabricates a fully random record, is unreachable in the embedding.) -/
def analyzeTearFilmPattern (img : RGBImage) (u : ℚ) (z : ℤ) : TearFilmResult :=
  if brightnessQ img < 100 then
    { grade := "Poor", coverage := uniformDraw 15 30 u
      qualityScore := randintDraw 3 5 z
      interpretation := "Low interference pattern - significant lipid layer deficiency" }
  else if lowContrast img then
    { grade := "Fair", coverage := uniformDraw 30 50 u
      qualityScore := randintDraw 5 7 z
      interpretation := "Moderate interference - mild evaporative dry eye" }
  else if redTotal img > greenTotal img ∧ redTotal img > blueTotal img then
    { grade := "Good", coverage := uniformDraw 50 70 u
      qualityScore := randintDraw 7 9 z
      interpretation := "Yellow-orange pattern - normal lipid layer" }
  else
    { grade := "Excellent", coverage := uniformDraw 70 85 u
      qualityScore := randintDraw 8 10 z
      interpretation := "Rich colorful pattern - healthy tear film" }

/-! Section: Concrete test inputs used by counterexamples and witnesses -/

/-- A 1×1 all-black image (used to exhibit the PRNG dependence of the
tear-film analysis: its brightness is 0, so the "Poor" branch runs). -/
def blackPixelImage : RGBImage := ⟨1, 1, fun _ => (0, 0, 0)⟩

/-- A 2×2 gray-ramp image with channel values 0, 10, 20, 30: its darkest
pixel falls in the pupil mask and its brightest in the sclera mask, and its
staining masks (primary and fallback) are empty. -/
def rampImage : RGBImage :=
  ⟨2, 2, fun p =>
    if p = (0, 0) then (0, 0, 0)
    else if p = (0, 1) then (10, 10, 10)
    else if p = (1, 0) then (20, 20, 20)
    else (30, 30, 30)⟩

/-- The sixteen positions added to the modular lattice to make the green
pixel set of `c5Image` a dominating set of the 20×20 grid under the cross
neighbourhood. -/
def c5Extras : List Pos :=
  [(0, 1), (0, 2), (0, 7), (0, 12), (0, 17), (0, 19), (3, 0), (5, 19),
   (8, 0), (10, 19), (13, 0), (15, 19), (18, 0), (19, 5), (19, 10), (19, 15)]

/-- The green-pixel mask of `c5Image`: the lattice `(2i + j) % 5 = 0`
together with `c5Extras`, inside the 20×20 window — 96 pixels whose cross
neighbourhoods cover the whole window. -/
def c5Green : Mask := fun p =>
  inWin 20 20 p && (decide ((2 * p.1 + p.2) % 5 = 0) || decide (p ∈ c5Extras))

/-- The row-major rank of a position in a 20-column array. -/
def c5Rank (p : Pos) : ℤ := 20 * p.1 + p.2

/-- A synthetic 20×20 fluorescein image: 96 bright-green pixels
`(30, 250, 20)` on the dominating set `c5Green`, 40 black pixels
`(0, 0, 0)` and 60 white pixels `(255, 255, 255)` filling the first
non-green positions in row-major order, and mid-gray `(60, 60, 60)`
everywhere else. -/
def c5Image : RGBImage :=
  ⟨20, 20, fun p =>
    if c5Green p then (30, 250, 20)
    else if c5Rank p ≤ 57 then (0, 0, 0)
    else if c5Rank p ≤ 134 then (255, 255, 255)
    else (60, 60, 60)⟩

/-- The full 20×20 window as a mask (the dilation of `c5Green`). -/
def c5Full : Mask := fun p => inWin 20 20 p

/-- The 18×18 interior of the 20×20 window (the closing of `c5Green`). -/
def c5I18 : Mask := fun p =>
  decide (1 ≤ p.1 ∧ p.1 ≤ 18 ∧ 1 ≤ p.2 ∧ p.2 ≤ 18)

/-- The 16×16 core of the window (the erosion of `c5I18`). -/
def c5I16 : Mask := fun p =>
  decide (2 ≤ p.1 ∧ p.1 ≤ 17 ∧ 2 ≤ p.2 ∧ p.2 ≤ 17)

/-- The 18×18 interior minus its four corners (the opening of `c5I18`,
i.e. the refined staining mask of `c5Image`): 320 pixels. -/
def c5OC : Mask := fun p =>
  decide ((1 ≤ p.1 ∧ p.1 ≤ 18 ∧ 2 ≤ p.2 ∧ p.2 ≤ 17) ∨
    (2 ≤ p.1 ∧ p.1 ≤ 17 ∧ 1 ≤ p.2 ∧ p.2 ≤ 18))

/-- The diagonal two-pixel mask `{(0,0), (1,1)}`: one 8-connected
component, two 4-connected components. -/
def diagPair : List Pos := [(0, 0), (1, 1)]

/-- A ten-pixel horizontal strip in a 1×12 window: a single 4-connected
component of exactly the minimum size floor `max(10, 0.001·12) = 10`. -/
def strip10 : List Pos :=
  [(0, 0), (0, 1), (0, 2), (0, 3), (0, 4), (0, 5), (0, 6), (0, 7), (0, 8), (0, 9)]

/-! Section: Theorems -/

/-! Section: Breadth-first component closure: saturation and reachability -/

theorem mem_winF_iff {h w : ℕ} {p : Pos} :
    p ∈ winF h w ↔ inWin h w p = true := by
  unfold winF inWin
  rw [Finset.mem_product, Finset.mem_Icc, Finset.mem_Icc, decide_eq_true_iff]
  omega

theorem winF_card (h w : ℕ) : (winF h w).card = h * w := by
  unfold winF
  rw [Finset.card_product, Int.card_Icc, Int.card_Icc]
  simp

theorem mem_growStep {ds : List Pos} {m : Mask} {s : Finset Pos} {q : Pos} :
    q ∈ growStep ds m s ↔
      q ∈ s ∨ (m q = true ∧ ∃ p ∈ s, q ∈ nbrsOf ds p) := by
  unfold growStep
  simp only [Finset.mem_union, Finset.mem_filter, Finset.mem_biUnion,
    List.mem_toFinset]
  tauto

theorem subset_growStep (ds : List Pos) (m : Mask) (s : Finset Pos) :
    s ⊆ growStep ds m s :=
  Finset.subset_union_left

theorem growStep_mono {ds : List Pos} {m : Mask} {s t : Finset Pos}
    (hst : s ⊆ t) : growStep ds m s ⊆ growStep ds m t := by
  intro q hq
  rcases mem_growStep.1 hq with h | ⟨hm, p, hp, hn⟩
  · exact mem_growStep.2 (Or.inl (hst h))
  · exact mem_growStep.2 (Or.inr ⟨hm, p, hst hp, hn⟩)

theorem growIter_mono_set {ds : List Pos} {m : Mask} {s t : Finset Pos}
    (n : ℕ) (hst : s ⊆ t) : (growStep ds m)^[n] s ⊆ (growStep ds m)^[n] t := by
  induction n generalizing s t with
  | zero => exact hst
  | succ n ih =>
    rw [Function.iterate_succ_apply, Function.iterate_succ_apply]
    exact ih (growStep_mono hst)

theorem growIter_subset_succ {ds : List Pos} {m : Mask} (s : Finset Pos)
    (n : ℕ) : (growStep ds m)^[n] s ⊆ (growStep ds m)^[n + 1] s := by
  rw [Function.iterate_succ_apply]
  exact growIter_mono_set n (subset_growStep ds m s)

theorem growIter_le {ds : List Pos} {m : Mask} (s : Finset Pos) {n k : ℕ}
    (hnk : n ≤ k) : (growStep ds m)^[n] s ⊆ (growStep ds m)^[k] s := by
  induction k with
  | zero => simpa [Nat.le_zero.1 hnk] using Finset.Subset.refl _
  | succ k ih =>
    rcases Nat.lt_or_ge n (k + 1) with h | h
    · exact (ih (Nat.lt_succ_iff.1 h)).trans (growIter_subset_succ s k)
    · have : n = k + 1 := le_antisymm hnk h
      subst this
      exact Finset.Subset.refl _

theorem growStep_subset_support {ds : List Pos} {m : Mask} {h w : ℕ}
    (hm : ∀ p, m p = true → inWin h w p = true) {s : Finset Pos}
    (hs : s ⊆ (winF h w).filter (fun p => m p = true)) :
    growStep ds m s ⊆ (winF h w).filter (fun p => m p = true) := by
  intro q hq
  rcases mem_growStep.1 hq with hqs | ⟨hmq, _, _, _⟩
  · exact hs hqs
  · exact Finset.mem_filter.2 ⟨mem_winF_iff.2 (hm q hmq), hmq⟩

theorem growIter_subset_support {ds : List Pos} {m : Mask} {h w : ℕ}
    (hm : ∀ p, m p = true → inWin h w p = true) {s : Finset Pos}
    (hs : s ⊆ (winF h w).filter (fun p => m p = true)) (n : ℕ) :
    (growStep ds m)^[n] s ⊆ (winF h w).filter (fun p => m p = true) := by
  induction n with
  | zero => exact hs
  | succ n ih =>
    rw [Function.iterate_succ_apply']
    exact growStep_subset_support hm ih

theorem growIter_stab {ds : List Pos} {m : Mask} {s : Finset Pos} {n : ℕ}
    (hstab : (growStep ds m)^[n] s = (growStep ds m)^[n + 1] s) :
    ∀ k, n ≤ k → (growStep ds m)^[k] s = (growStep ds m)^[n] s := by
  intro k hk
  obtain ⟨d, rfl⟩ := Nat.exists_eq_add_of_le hk
  clear hk
  induction d with
  | zero => rfl
  | succ d ih =>
    have hstep : n + (d + 1) = (n + d) + 1 := rfl
    rw [hstep, Function.iterate_succ_apply', ih,
      ← Function.iterate_succ_apply' (growStep ds m) n s, ← hstab]

theorem growIter_card_growth {ds : List Pos} {m : Mask} {s : Finset Pos}
    {N : ℕ} (hne : ∀ k < N, (growStep ds m)^[k] s ≠ (growStep ds m)^[k + 1] s) :
    N + s.card ≤ ((growStep ds m)^[N] s).card := by
  induction N with
  | zero => simp
  | succ N ih =>
    have h1 : N + s.card ≤ ((growStep ds m)^[N] s).card :=
      ih (fun k hk => hne k (hk.trans (Nat.lt_succ_self N)))
    have h2 : (growStep ds m)^[N] s ⊂ (growStep ds m)^[N + 1] s :=
      Finset.ssubset_iff_subset_ne.2
        ⟨growIter_subset_succ s N, hne N (Nat.lt_succ_self N)⟩
    have := Finset.card_lt_card h2
    omega

theorem exists_stable_step {ds : List Pos} {m : Mask} {h w : ℕ}
    (hm : ∀ p, m p = true → inWin h w p = true) {p : Pos} (hp : m p = true) :
    ∃ n ≤ h * w, (growStep ds m)^[n] {p} = (growStep ds m)^[n + 1] {p} := by
  by_contra hcon
  push_neg at hcon
  have hne : ∀ k < h * w, (growStep ds m)^[k] {p} ≠ (growStep ds m)^[k + 1] {p} :=
    fun k hk => hcon k (le_of_lt hk)
  have hgrow := @growIter_card_growth ds m {p} (h * w) hne
  have hseed : ({p} : Finset Pos) ⊆ (winF h w).filter (fun q => m q = true) := by
    intro q hq
    rw [Finset.mem_singleton.1 hq]
    exact Finset.mem_filter.2 ⟨mem_winF_iff.2 (hm p hp), hp⟩
  have hsub := @growIter_subset_support ds m h w hm {p} hseed (h * w)
  have hcard := Finset.card_le_card hsub
  have hsupp : ((winF h w).filter (fun q => m q = true)).card ≤ h * w := by
    calc ((winF h w).filter (fun q => m q = true)).card
        ≤ (winF h w).card := Finset.card_le_card (Finset.filter_subset _ _)
      _ = h * w := winF_card h w
  simp only [Finset.card_singleton] at hgrow
  omega

theorem growIter_subset_compo {ds : List Pos} {m : Mask} {h w : ℕ}
    (hm : ∀ q, m q = true → inWin h w q = true) {p : Pos} (hp : m p = true)
    (n : ℕ) : (growStep ds m)^[n] {p} ⊆ compo ds h w m p := by
  obtain ⟨n₀, hn₀, hstab⟩ := @exists_stable_step ds m h w hm p hp
  unfold compo
  rcases Nat.le_total n (h * w) with h1 | h1
  · exact growIter_le _ h1
  · rw [growIter_stab hstab n (hn₀.trans h1), growIter_stab hstab (h * w) hn₀]

theorem seed_mem_growIter {ds : List Pos} {m : Mask} (p : Pos) (n : ℕ) :
    p ∈ (growStep ds m)^[n] {p} :=
  growIter_le _ (Nat.zero_le n) (Finset.mem_singleton_self p)

theorem self_mem_compo (ds : List Pos) (h w : ℕ) (m : Mask) (p : Pos) :
    p ∈ compo ds h w m p :=
  seed_mem_growIter p (h * w)

theorem reaches_mem {ds : List Pos} {m : Mask} {p q : Pos} (hp : m p = true)
    (hr : reaches ds m p q) : m q = true := by
  induction hr with
  | refl => exact hp
  | tail _ hadj _ => exact hadj.2.1

/-- Saturation: the breadth-first closure `compo` computes exactly the set
of pixels reachable from `p` inside the mask — the pixels sharing `p`'s
label under `scipy.ndimage.label` with the corresponding connectivity. -/
theorem mem_compo_iff_reaches {ds : List Pos} {m : Mask} {h w : ℕ}
    (hm : ∀ q, m q = true → inWin h w q = true) {p : Pos} (hp : m p = true)
    {q : Pos} : q ∈ compo ds h w m p ↔ reaches ds m p q := by
  constructor
  · intro hq
    unfold compo at hq
    have sound : ∀ n r, r ∈ (growStep ds m)^[n] {p} → reaches ds m p r := by
      intro n
      induction n with
      | zero =>
        intro r hr
        rw [Function.iterate_zero_apply, Finset.mem_singleton] at hr
        rw [hr]
        exact Relation.ReflTransGen.refl
      | succ n ih =>
        intro r hr
        rw [Function.iterate_succ_apply'] at hr
        rcases mem_growStep.1 hr with h1 | ⟨hmr, a, ha, hn⟩
        · exact ih r h1
        · have hma : m a = true := by
            have hseed : ({p} : Finset Pos) ⊆
                (winF h w).filter (fun z => m z = true) := by
              intro z hz
              rw [Finset.mem_singleton.1 hz]
              exact Finset.mem_filter.2 ⟨mem_winF_iff.2 (hm p hp), hp⟩
            exact (Finset.mem_filter.1 (growIter_subset_support hm hseed n ha)).2
          exact Relation.ReflTransGen.tail (ih a ha) ⟨hma, hmr, hn⟩
    exact sound (h * w) q hq
  · intro hr
    have climb : ∃ n, q ∈ (growStep ds m)^[n] {p} := by
      induction hr with
      | refl => exact ⟨0, Finset.mem_singleton_self p⟩
      | tail _ hadj ih =>
        obtain ⟨n, hn⟩ := ih
        rename_i b c _
        refine ⟨n + 1, ?_⟩
        rw [Function.iterate_succ_apply']
        exact mem_growStep.2 (Or.inr ⟨hadj.2.1, b, hn, hadj.2.2⟩)
    obtain ⟨n, hn⟩ := climb
    exact growIter_subset_compo hm hp n hn

/-! Section: Component congruence and small-component removal -/

theorem nbrsOf_delta4_symm {a b : Pos} (hab : b ∈ nbrsOf delta4 a) :
    a ∈ nbrsOf delta4 b := by
  simp only [nbrsOf, delta4, List.mem_map, List.mem_cons, List.not_mem_nil,
    or_false, Prod.ext_iff] at hab ⊢
  obtain ⟨x, hx, h1, h2⟩ := hab
  rcases hx with ⟨e1, e2⟩ | ⟨e1, e2⟩ | ⟨e1, e2⟩ | ⟨e1, e2⟩
  · exact ⟨(-1, 0), by norm_num, by omega, by omega⟩
  · exact ⟨(1, 0), by norm_num, by omega, by omega⟩
  · exact ⟨(0, -1), by norm_num, by omega, by omega⟩
  · exact ⟨(0, 1), by norm_num, by omega, by omega⟩

theorem nbrsOf_delta8_symm {a b : Pos} (hab : b ∈ nbrsOf delta8 a) :
    a ∈ nbrsOf delta8 b := by
  simp only [nbrsOf, delta8, List.mem_map, List.mem_cons, List.not_mem_nil,
    or_false, Prod.ext_iff] at hab ⊢
  obtain ⟨x, hx, h1, h2⟩ := hab
  rcases hx with ⟨e1, e2⟩ | ⟨e1, e2⟩ | ⟨e1, e2⟩ | ⟨e1, e2⟩ | ⟨e1, e2⟩ |
    ⟨e1, e2⟩ | ⟨e1, e2⟩ | ⟨e1, e2⟩
  · exact ⟨(-1, 0), by norm_num, by omega, by omega⟩
  · exact ⟨(1, 0), by norm_num, by omega, by omega⟩
  · exact ⟨(0, -1), by norm_num, by omega, by omega⟩
  · exact ⟨(0, 1), by norm_num, by omega, by omega⟩
  · exact ⟨(-1, -1), by norm_num, by omega, by omega⟩
  · exact ⟨(-1, 1), by norm_num, by omega, by omega⟩
  · exact ⟨(1, -1), by norm_num, by omega, by omega⟩
  · exact ⟨(1, 1), by norm_num, by omega, by omega⟩

theorem reaches_symm {ds : List Pos} {m : Mask}
    (hsym : ∀ a b : Pos, b ∈ nbrsOf ds a → a ∈ nbrsOf ds b) {p q : Pos}
    (hr : reaches ds m p q) : reaches ds m q p := by
  have hadj : Symmetric (adjacent ds m) := by
    intro a b ⟨ha, hb, hn⟩
    exact ⟨hb, ha, hsym a b hn⟩
  exact Relation.ReflTransGen.symmetric hadj hr

theorem compo_congr_of_reaches {ds : List Pos} {m : Mask} {h w : ℕ}
    (hm : ∀ q, m q = true → inWin h w q = true)
    (hsym : ∀ a b : Pos, b ∈ nbrsOf ds a → a ∈ nbrsOf ds b) {p q : Pos}
    (hp : m p = true) (hr : reaches ds m p q) :
    compo ds h w m p = compo ds h w m q := by
  have hq : m q = true := reaches_mem hp hr
  ext r
  rw [mem_compo_iff_reaches hm hp, mem_compo_iff_reaches hm hq]
  exact ⟨fun hpr => (reaches_symm hsym hr).trans hpr, fun hqr => hr.trans hqr⟩

theorem removeSmall_le {h w : ℕ} {m : Mask} {p : Pos}
    (hp : removeSmall h w m p = true) : m p = true := by
  unfold removeSmall at hp
  rw [Bool.and_eq_true] at hp
  exact hp.1

theorem removeSmall_size {h w : ℕ} {m : Mask} {p : Pos}
    (hp : removeSmall h w m p = true) :
    max 10000 (h * w) ≤ 1000 * (compo delta4 h w m p).card := by
  unfold removeSmall at hp
  rw [Bool.and_eq_true] at hp
  exact of_decide_eq_true hp.2

theorem removeSmall_inWin {h w : ℕ} {m : Mask}
    (hm : ∀ q, m q = true → inWin h w q = true) :
    ∀ p, removeSmall h w m p = true → inWin h w p = true :=
  fun p hp => hm p (removeSmall_le hp)

/-- Pixels kept by the removal step are closed under reachability in the
original mask: a whole component is either kept or removed. -/
theorem removeSmall_closed {h w : ℕ} {m : Mask}
    (hm : ∀ q, m q = true → inWin h w q = true) {p q : Pos}
    (hp : removeSmall h w m p = true) (hr : reaches delta4 m p q) :
    removeSmall h w m q = true := by
  have hmp : m p = true := removeSmall_le hp
  have hmq : m q = true := reaches_mem hmp hr
  have hco : compo delta4 h w m q = compo delta4 h w m p :=
    (compo_congr_of_reaches hm (fun _ _ => nbrsOf_delta4_symm) hmp hr).symm
  unfold removeSmall
  rw [hmq, hco]
  simpa using removeSmall_size hp

theorem reaches_mono {ds : List Pos} {m m' : Mask}
    (hmm : ∀ p, m' p = true → m p = true) {p q : Pos}
    (hr : reaches ds m' p q) : reaches ds m p q := by
  refine Relation.ReflTransGen.mono ?_ hr
  intro a b ⟨ha, hb, hn⟩
  exact ⟨hmm a ha, hmm b hb, hn⟩

theorem reaches_removeSmall_iff {h w : ℕ} {m : Mask}
    (hm : ∀ q, m q = true → inWin h w q = true) {p q : Pos}
    (hp : removeSmall h w m p = true) :
    reaches delta4 (removeSmall h w m) p q ↔ reaches delta4 m p q := by
  constructor
  · exact reaches_mono (fun r hr => removeSmall_le hr)
  · intro hr
    induction hr with
    | refl => exact Relation.ReflTransGen.refl
    | tail hab hadj ih =>
      have hb := removeSmall_closed hm hp hab
      have hc := removeSmall_closed hm hp (hab.tail hadj)
      exact Relation.ReflTransGen.tail ih ⟨hb, hc, hadj.2.2⟩

/-- The component of a kept pixel after removal equals its component before
removal: removing whole (other) components does not split or shrink the
surviving ones. -/
theorem compo_removeSmall_eq {h w : ℕ} {m : Mask}
    (hm : ∀ q, m q = true → inWin h w q = true) {p : Pos}
    (hp : removeSmall h w m p = true) :
    compo delta4 h w (removeSmall h w m) p = compo delta4 h w m p := by
  ext r
  rw [mem_compo_iff_reaches (removeSmall_inWin hm) hp,
    mem_compo_iff_reaches hm (removeSmall_le hp),
    reaches_removeSmall_iff hm hp]

/-! Section: C9 — surviving components meet the minimum-size floor -/

/-- C9, confirmed.  After the small-component removal step, every
remaining pixel's connected component (within the removed mask, under the
4-connectivity used by `ndimage.label`) has size at least
`min_size = max(10, 0.001 * (h*w))`; the comparison is stated scaled by
1000: `1000 * min_size = max(10000, h*w)`.  The mask is given as its list
of `true` pixels, required to lie inside the window. -/
theorem c9_survivors_meet_min_size (h w : ℕ) (l : List Pos)
    (hl : l.all (inWin h w) = true) (p : Pos)
    (hp : removeSmall h w (maskOfList l) p = true) :
    max 10000 (h * w) ≤
      1000 * (compo delta4 h w (removeSmall h w (maskOfList l)) p).card := by
  have hm : ∀ q, maskOfList l q = true → inWin h w q = true := by
    intro q hq
    exact List.all_eq_true.1 hl q (of_decide_eq_true hq)
  rw [compo_removeSmall_eq hm hp]
  exact removeSmall_size hp

/-- Witness for `c9_survivors_meet_min_size`: a ten-pixel strip in a 1×12
window survives removal (its size equals the floor `max(10, 0.012) = 10`)
and its component after removal still has 10 pixels. -/
theorem c9_survivors_meet_min_size_witness :
    (strip10.all (inWin 1 12) = true) ∧
      removeSmall 1 12 (maskOfList strip10) (0, 0) = true ∧
      max 10000 (1 * 12) ≤
        1000 * (compo delta4 1 12 (removeSmall 1 12 (maskOfList strip10)) (0, 0)).card :=
  ⟨by decide, by decide,
    c9_survivors_meet_min_size 1 12 strip10 (by decide) (0, 0) (by decide)⟩

/-! Section: C6 — lesion counting and connectivity -/

/-- If two functions on a finite set factor one through the other
(`f p = f q → g p = g q`), the image of `g` is no larger than the image of
`f`. -/
theorem card_image_le_of_factor {α β γ : Type} [DecidableEq α] [DecidableEq β]
    [DecidableEq γ] (S : Finset α) (f : α → β) (g : α → γ)
    (hfg : ∀ p ∈ S, ∀ q ∈ S, f p = f q → g p = g q) :
    (S.image g).card ≤ (S.image f).card := by
  classical
  rcases Finset.eq_empty_or_nonempty S with rfl | ⟨a, ha⟩
  · simp
  · have hchoice : ∀ c ∈ S.image g, ∃ p ∈ S, g p = c := by
      intro c hc
      simpa using Finset.mem_image.1 hc
    choose pick hpick hgpick using hchoice
    refine Finset.card_le_card_of_injOn
      (fun c => if hc : c ∈ S.image g then f (pick c hc) else f a) ?_ ?_
    · intro c hc
      dsimp only
      rw [dif_pos hc]
      exact Finset.mem_image_of_mem f (hpick c hc)
    · intro c₁ hc₁ c₂ hc₂ heq
      simp only [Finset.mem_coe] at hc₁ hc₂
      dsimp only at heq
      rw [dif_pos hc₁, dif_pos hc₂] at heq
      have := hfg _ (hpick c₁ hc₁) _ (hpick c₂ hc₂) heq
      rw [hgpick c₁ hc₁, hgpick c₂ hc₂] at this
      exact this

/-- C6, counterexample.  The claim asserts the returned lesion count is
the number of 8-connected components.  `ndimage.label` is called with its
default structure, i.e. 4-connectivity: on the diagonal pair
`{(0,0), (1,1)}` the code counts 2 lesions while the 8-connected component
count is 1. -/
theorem c6_diagonal_counted_twice :
    componentCount delta4 2 2 (maskOfList diagPair) = 2 ∧
      componentCount delta8 2 2 (maskOfList diagPair) = 1 :=
  ⟨by decide, by decide⟩

/-- C6, amended.  On the primary path the returned lesion count is the
number of 4-connected components of the valid staining mask
(`ndimage.label`'s default connectivity), which is always at least the
specification's 8-connected component count, with equality failing when
distinct 4-components touch diagonally; the fallback path returns
`int(percentage / 2)`, which is not a component count at all. -/
theorem c6_lesion_count_four_conn (h w : ℕ) (l : List Pos)
    (hl : l.all (inWin h w) = true) :
    componentCount delta8 h w (maskOfList l) ≤
      componentCount delta4 h w (maskOfList l) := by
  have hm : ∀ q, maskOfList l q = true → inWin h w q = true := by
    intro q hq
    exact List.all_eq_true.1 hl q (of_decide_eq_true hq)
  unfold componentCount
  refine card_image_le_of_factor _ _ _ ?_
  intro p hp q hq hco
  have hmp : maskOfList l p = true := (Finset.mem_filter.1 hp).2
  have hmq : maskOfList l q = true := (Finset.mem_filter.1 hq).2
  have hq4 : q ∈ compo delta4 h w (maskOfList l) p := by
    rw [hco]
    exact self_mem_compo _ _ _ _ _
  have hr4 : reaches delta4 (maskOfList l) p q :=
    (mem_compo_iff_reaches hm hmp).1 hq4
  have hr8 : reaches delta8 (maskOfList l) p q := by
    refine Relation.ReflTransGen.mono ?_ hr4
    intro a b ⟨ha, hb, hn⟩
    refine ⟨ha, hb, ?_⟩
    simp only [nbrsOf, List.mem_map] at hn ⊢
    obtain ⟨x, hx, hxb⟩ := hn
    refine ⟨x, ?_, hxb⟩
    simp only [delta4, List.mem_cons, List.not_mem_nil, or_false] at hx
    simp only [delta8, List.mem_cons, List.not_mem_nil, or_false]
    tauto
  exact compo_congr_of_reaches hm (fun _ _ => nbrsOf_delta8_symm) hmp hr8

/-- Witness for `c6_lesion_count_four_conn` on the diagonal pair. -/
theorem c6_lesion_count_four_conn_witness :
    (diagPair.all (inWin 2 2) = true) ∧
      componentCount delta8 2 2 (maskOfList diagPair) ≤
        componentCount delta4 2 2 (maskOfList diagPair) :=
  ⟨by decide, c6_lesion_count_four_conn 2 2 diagPair (by decide)⟩

/-! Section: C7 — morphology algebra and idempotence of refinement -/

theorem bool_eq_of_iff {a b : Bool} (h : a = true ↔ b = true) : a = b := by
  cases a <;> cases b <;> simp_all

theorem dilateB_eq_true {h w : ℕ} {m : Mask} {p : Pos} :
    dilateB h w m p = true ↔
      inWin h w p = true ∧ ∃ b ∈ cross, m (p.1 - b.1, p.2 - b.2) = true := by
  simp [dilateB, List.any_eq_true]

theorem erodeB_eq_true {m : Mask} {p : Pos} :
    erodeB m p = true ↔ ∀ b ∈ cross, m (p.1 + b.1, p.2 + b.2) = true := by
  simp [erodeB, List.all_eq_true]

theorem erodeB_le {m : Mask} (p : Pos) (hp : erodeB m p = true) : m p = true := by
  have := (erodeB_eq_true.1 hp) (0, 0) (by simp [cross])
  simpa using this

theorem dilateB_inWin {h w : ℕ} {m : Mask} {p : Pos}
    (hp : dilateB h w m p = true) : inWin h w p = true :=
  (dilateB_eq_true.1 hp).1

theorem dilateB_mono {h w : ℕ} {m m' : Mask}
    (hmm : ∀ q, m q = true → m' q = true) (p : Pos)
    (hp : dilateB h w m p = true) : dilateB h w m' p = true := by
  obtain ⟨hin, b, hb, hout⟩ := dilateB_eq_true.1 hp
  exact dilateB_eq_true.2 ⟨hin, b, hb, hmm _ hout⟩

theorem erodeB_mono {m m' : Mask} (hmm : ∀ q, m q = true → m' q = true)
    (p : Pos) (hp : erodeB m p = true) : erodeB m' p = true := by
  rw [erodeB_eq_true] at hp ⊢
  exact fun b hb => hmm _ (hp b hb)

theorem openingB_le {h w : ℕ} {m : Mask} (p : Pos)
    (hp : openingB h w m p = true) : m p = true := by
  obtain ⟨hin, b, hb, hout⟩ := dilateB_eq_true.1 hp
  have := (erodeB_eq_true.1 hout) b hb
  simpa using this

theorem closingB_mono {h w : ℕ} {m m' : Mask}
    (hmm : ∀ q, m q = true → m' q = true) (p : Pos)
    (hp : closingB h w m p = true) : closingB h w m' p = true :=
  erodeB_mono (dilateB_mono hmm) p hp

theorem openingB_mono {h w : ℕ} {m m' : Mask}
    (hmm : ∀ q, m q = true → m' q = true) (p : Pos)
    (hp : openingB h w m p = true) : openingB h w m' p = true :=
  dilateB_mono (erodeB_mono hmm) p hp

/-- The lattice-theoretic core of opening idempotence:
`erode ∘ dilate ∘ erode = erode` for masks supported in the window. -/
theorem erode_dilate_erode {h w : ℕ} {m : Mask}
    (hm : ∀ p, m p = true → inWin h w p = true) :
    erodeB (dilateB h w (erodeB m)) = erodeB m := by
  funext p
  apply bool_eq_of_iff
  constructor
  · intro hp
    rw [erodeB_eq_true] at hp ⊢
    intro b hb
    exact openingB_le _ (hp b hb)
  · intro hp
    rw [erodeB_eq_true]
    intro b hb
    rw [dilateB_eq_true]
    refine ⟨hm _ ((erodeB_eq_true.1 hp) b hb), b, hb, ?_⟩
    simpa using hp

theorem openingB_idem {h w : ℕ} {m : Mask}
    (hm : ∀ p, m p = true → inWin h w p = true) :
    openingB h w (openingB h w m) = openingB h w m := by
  unfold openingB
  rw [erode_dilate_erode hm]

theorem closingB_closingB_le {h w : ℕ} {m : Mask} (p : Pos)
    (hp : closingB h w (closingB h w m) p = true) :
    closingB h w m p = true := by
  unfold closingB at hp ⊢
  rw [erodeB_eq_true] at hp ⊢
  intro b hb
  exact openingB_le _ (hp b hb)

theorem closingB_interior {h w : ℕ} {m : Mask} {p : Pos}
    (hp : closingB h w m p = true) :
    ∀ b ∈ cross, inWin h w (p.1 + b.1, p.2 + b.2) = true := by
  intro b hb
  unfold closingB at hp
  exact dilateB_inWin ((erodeB_eq_true.1 hp) b hb)

theorem closingB_inWin {h w : ℕ} {m : Mask} (p : Pos)
    (hp : closingB h w m p = true) : inWin h w p = true := by
  have := closingB_interior hp (0, 0) (by simp [cross])
  simpa using this

theorem closingB_extensive_of_interior {h w : ℕ} {Z : Mask}
    (hZ : ∀ p, Z p = true →
      ∀ b ∈ cross, inWin h w (p.1 + b.1, p.2 + b.2) = true) (p : Pos)
    (hp : Z p = true) : closingB h w Z p = true := by
  unfold closingB
  rw [erodeB_eq_true]
  intro b hb
  rw [dilateB_eq_true]
  exact ⟨hZ p hp b hb, b, hb, by simpa using hp⟩

/-- The opening-of-the-closing lies two erosions inside the window: each of
its pixels has its whole cross neighbourhood inside the window. -/
theorem oc_interior {h w : ℕ} {m : Mask} {p : Pos}
    (hp : openingB h w (closingB h w m) p = true) :
    ∀ b ∈ cross, inWin h w (p.1 + b.1, p.2 + b.2) = true := by
  intro b hb
  obtain ⟨hin, b₀, hb₀, hout⟩ := dilateB_eq_true.1 hp
  have hcp : closingB h w m p = true := by
    simpa using (erodeB_eq_true.1 hout) b₀ hb₀
  exact closingB_interior hcp b hb

theorem openingB_inWin {h w : ℕ} {m : Mask} (p : Pos)
    (hp : openingB h w m p = true) : inWin h w p = true :=
  dilateB_inWin hp

/-- Idempotence of the closing-then-opening composite, with scipy's
`border_value=0` semantics.  (`γφγφ = γφ` where `γ` is the opening and `φ`
the windowed closing: `γφ ≤ φ` gives `φγφ ≤ φφ ≤ φ`, hence `γφγφ ≤ γφ`;
conversely `γφ` lies inside the window's interior, where `φ` is extensive,
and `γ` is idempotent, giving `γφγφ ≥ γγφ = γφ`.) -/
theorem oc_idem (h w : ℕ) (m : Mask) :
    openingB h w (closingB h w (openingB h w (closingB h w m))) =
      openingB h w (closingB h w m) := by
  funext p
  apply bool_eq_of_iff
  constructor
  · intro hp
    have hstep : ∀ q, closingB h w (openingB h w (closingB h w m)) q = true →
        closingB h w m q = true := by
      intro q hq
      exact closingB_closingB_le q
        (closingB_mono (fun r hr => openingB_le r hr) q hq)
    exact openingB_mono hstep p hp
  · intro hp
    have hext : ∀ q, openingB h w (closingB h w m) q = true →
        closingB h w (openingB h w (closingB h w m)) q = true :=
      closingB_extensive_of_interior (fun q hq => oc_interior hq)
    have hidem : openingB h w (openingB h w (closingB h w m)) =
        openingB h w (closingB h w m) :=
      openingB_idem (fun q hq => closingB_inWin q hq)
    have hp' : openingB h w (openingB h w (closingB h w m)) p = true := by
      rw [hidem]
      exact hp
    exact openingB_mono hext p hp'

theorem cross_step_add (x : Pos) {b : Pos} (hb : b ∈ cross) :
    (x.1 + b.1, x.2 + b.2) = x ∨ (x.1 + b.1, x.2 + b.2) ∈ nbrsOf delta4 x := by
  simp only [cross, List.mem_cons, List.not_mem_nil, or_false] at hb
  rcases hb with rfl | rfl | rfl | rfl | rfl
  · left
    simp
  · right
    exact List.mem_map.2 ⟨(1, 0), by simp [delta4], by simp [Prod.ext_iff]⟩
  · right
    exact List.mem_map.2 ⟨(-1, 0), by simp [delta4], by simp [Prod.ext_iff]⟩
  · right
    exact List.mem_map.2 ⟨(0, 1), by simp [delta4], by simp [Prod.ext_iff]⟩
  · right
    exact List.mem_map.2 ⟨(0, -1), by simp [delta4], by simp [Prod.ext_iff]⟩

theorem cross_step_sub (x : Pos) {b : Pos} (hb : b ∈ cross) :
    (x.1 - b.1, x.2 - b.2) = x ∨ (x.1 - b.1, x.2 - b.2) ∈ nbrsOf delta4 x := by
  simp only [cross, List.mem_cons, List.not_mem_nil, or_false] at hb
  rcases hb with rfl | rfl | rfl | rfl | rfl
  · left
    simp
  · right
    refine List.mem_map.2 ⟨(-1, 0), by simp [delta4], ?_⟩
    simp only [Prod.ext_iff]
    constructor <;> omega
  · right
    refine List.mem_map.2 ⟨(1, 0), by simp [delta4], ?_⟩
    simp only [Prod.ext_iff]
    constructor <;> omega
  · right
    refine List.mem_map.2 ⟨(0, -1), by simp [delta4], ?_⟩
    simp only [Prod.ext_iff]
    constructor <;> omega
  · right
    refine List.mem_map.2 ⟨(0, 1), by simp [delta4], ?_⟩
    simp only [Prod.ext_iff]
    constructor <;> omega

/-- The mask surviving small-component removal of an opening-of-closing is
still open (`openingB`-stable): removal deletes whole components, and the
opening of a union of whole components of an open set is the set itself. -/
theorem removeSmall_oc_open (h w : ℕ) (m : Mask) :
    openingB h w (removeSmall h w (openingB h w (closingB h w m))) =
      removeSmall h w (openingB h w (closingB h w m)) := by
  have hXwin : ∀ q, openingB h w (closingB h w m) q = true →
      inWin h w q = true := fun q hq => openingB_inWin q hq
  have hXopen : openingB h w (openingB h w (closingB h w m)) =
      openingB h w (closingB h w m) :=
    openingB_idem (fun q hq => closingB_inWin q hq)
  funext p
  apply bool_eq_of_iff
  constructor
  · intro hp
    exact openingB_le p hp
  · intro hp
    have hpX : openingB h w (closingB h w m) p = true := removeSmall_le hp
    have hpo : openingB h w (openingB h w (closingB h w m)) p = true := by
      rw [hXopen]
      exact hpX
    obtain ⟨hin, b₀, hb₀, hq⟩ := dilateB_eq_true.1 hpo
    have hXq : openingB h w (closingB h w m) (p.1 - b₀.1, p.2 - b₀.2) = true :=
      erodeB_le _ hq
    have hreach_pq : reaches delta4 (openingB h w (closingB h w m)) p
        (p.1 - b₀.1, p.2 - b₀.2) := by
      rcases cross_step_sub p hb₀ with he | hn
      · rw [he]
        exact Relation.ReflTransGen.refl
      · exact Relation.ReflTransGen.single ⟨hpX, hXq, hn⟩
    have hcross : ∀ b ∈ cross,
        removeSmall h w (openingB h w (closingB h w m))
          ((p.1 - b₀.1) + b.1, (p.2 - b₀.2) + b.2) = true := by
      intro b hb
      have hXqb : openingB h w (closingB h w m)
          ((p.1 - b₀.1) + b.1, (p.2 - b₀.2) + b.2) = true :=
        (erodeB_eq_true.1 hq) b hb
      have hstep : reaches delta4 (openingB h w (closingB h w m))
          (p.1 - b₀.1, p.2 - b₀.2)
          ((p.1 - b₀.1) + b.1, (p.2 - b₀.2) + b.2) := by
        rcases cross_step_add (p.1 - b₀.1, p.2 - b₀.2) hb with he | hn
        · rw [he]
          exact Relation.ReflTransGen.refl
        · exact Relation.ReflTransGen.single ⟨hXq, hXqb, hn⟩
      exact removeSmall_closed hXwin hp (hreach_pq.trans hstep)
    rw [openingB, dilateB_eq_true]
    refine ⟨hXwin p hpX, b₀, hb₀, ?_⟩
    rw [erodeB_eq_true]
    exact hcross

/-- The opening-of-the-closing of the removed mask is the removed mask
itself: morphological cleanup is already converged after one pass, also
after component removal. -/
theorem oc_removeSmall (h w : ℕ) (m : Mask) :
    openingB h w (closingB h w
        (removeSmall h w (openingB h w (closingB h w m)))) =
      removeSmall h w (openingB h w (closingB h w m)) := by
  have hXwin : ∀ q, openingB h w (closingB h w m) q = true →
      inWin h w q = true := fun q hq => openingB_inWin q hq
  have hMle : ∀ q, removeSmall h w (openingB h w (closingB h w m)) q = true →
      openingB h w (closingB h w m) q = true := fun q hq => removeSmall_le hq
  have hMopen := removeSmall_oc_open h w m
  funext p
  apply bool_eq_of_iff
  constructor
  · intro hp
    have hXX : openingB h w (closingB h w (openingB h w (closingB h w m))) p
        = true := openingB_mono (closingB_mono hMle) p hp
    have hX_p : openingB h w (closingB h w m) p = true := by
      rw [← oc_idem h w m]
      exact hXX
    have hdil : dilateB h w (removeSmall h w (openingB h w (closingB h w m))) p
        = true :=
      erodeB_le _ (openingB_le p hp)
    obtain ⟨hin, b₀, hb₀, hMq⟩ := dilateB_eq_true.1 hdil
    rcases cross_step_sub p hb₀ with he | hn
    · rw [he] at hMq
      exact hMq
    · have hXq : openingB h w (closingB h w m) (p.1 - b₀.1, p.2 - b₀.2) =
          true := hMle _ hMq
      have hreach : reaches delta4 (openingB h w (closingB h w m))
          (p.1 - b₀.1, p.2 - b₀.2) p :=
        Relation.ReflTransGen.single ⟨hXq, hX_p, nbrsOf_delta4_symm hn⟩
      exact removeSmall_closed hXwin hMq hreach
  · intro hp
    have hMint : ∀ q,
        removeSmall h w (openingB h w (closingB h w m)) q = true →
        ∀ b ∈ cross, inWin h w (q.1 + b.1, q.2 + b.2) = true := by
      intro q hq b hb
      exact oc_interior (hMle q hq) b hb
    have h1 : openingB h w (removeSmall h w (openingB h w (closingB h w m))) p
        = true := by
      rw [hMopen]
      exact hp
    exact openingB_mono (closingB_extensive_of_interior hMint) p h1

/-- Removal is idempotent on an opening-of-closing: the surviving
components keep their full size, so a second size check removes nothing. -/
theorem removeSmall_idem_on_oc (h w : ℕ) (m : Mask) :
    removeSmall h w (removeSmall h w (openingB h w (closingB h w m))) =
      removeSmall h w (openingB h w (closingB h w m)) := by
  have hXwin : ∀ q, openingB h w (closingB h w m) q = true →
      inWin h w q = true := fun q hq => openingB_inWin q hq
  funext p
  apply bool_eq_of_iff
  constructor
  · intro hp
    exact removeSmall_le hp
  · intro hp
    show (removeSmall h w (openingB h w (closingB h w m)) p &&
      decide (max 10000 (h * w) ≤ 1000 *
        (compo delta4 h w
          (removeSmall h w (openingB h w (closingB h w m))) p).card)) = true
    rw [hp, compo_removeSmall_eq hXwin hp]
    simpa using removeSmall_size hp

/-- C7, confirmed.  The mask-refinement step — morphological closing,
then opening, then removal of connected components below the minimum-size
floor — is idempotent: a second pass returns exactly the same mask, for
every binary mask. -/
theorem c7_refinement_idempotent (h w : ℕ) (m : Mask) :
    refineMask h w (refineMask h w m) = refineMask h w m := by
  unfold refineMask
  rw [oc_removeSmall h w m]
  exact removeSmall_idem_on_oc h w m

/-! Section: C1 — the grade ladder and its boundary behaviour -/

/-- C1, counterexample.  The claim asserts that every boundary value
resolves to the more severe grade, in particular that a staining percentage
of exactly 8.0 is graded Moderate.  The source's ladder uses strict `>`
comparisons throughout (`app.py` lines 280–294), so 8.0 falls through
`> 8` into the `> 3` bucket: it is graded Mild, not Moderate. -/
theorem c1_boundary_goes_to_milder_grade :
    stainingGrade 8 = "Mild (Grade II)" ∧
      stainingGrade 8 ≠ "Moderate (Grade III)" := by
  have h : stainingGrade 8 = "Mild (Grade II)" := by
    unfold stainingGrade
    rw [if_neg (by decide), if_neg (by decide), if_pos (by decide)]
  exact ⟨h, by rw [h]; decide⟩

/-- C1, amended.  The grade mapper assigns severity by the threshold
ladder Severe on `(15, ∞)`, Moderate on `(8, 15]`, Mild on `(3, 8]`,
Trace on `(1/2, 3]` and None on `[0, 1/2]`, with every boundary value
resolving to the *less* severe grade (all cutoffs are strict `>`); in
particular a percentage of exactly 8.0 is graded Mild. -/
theorem c1_grade_ladder (p : ℚ) (hp : 0 ≤ p) :
    (15 < p → stainingGrade p = "Severe (Grade IV-V)") ∧
    (8 < p ∧ p ≤ 15 → stainingGrade p = "Moderate (Grade III)") ∧
    (3 < p ∧ p ≤ 8 → stainingGrade p = "Mild (Grade II)") ∧
    (1/2 < p ∧ p ≤ 3 → stainingGrade p = "Trace (Grade I)") ∧
    (p ≤ 1/2 → stainingGrade p = "None (Grade 0)") := by
  refine ⟨fun h => ?_, fun h => ?_, fun h => ?_, fun h => ?_, fun h => ?_⟩ <;>
    · unfold stainingGrade
      split_ifs with h1 h2 h3 h4 <;> first | rfl | (exfalso; rcases h with ⟨ha, hb⟩ | h <;> linarith) | (exfalso; linarith)

/-- Witness for `c1_grade_ladder` at the concrete percentage 8. -/
theorem c1_grade_ladder_witness :
    (0 ≤ (8 : ℚ)) ∧ (3 < (8 : ℚ) ∧ (8 : ℚ) ≤ 8) ∧
      stainingGrade 8 = "Mild (Grade II)" :=
  ⟨by decide, ⟨by decide, by decide⟩,
    (c1_grade_ladder 8 (by decide)).2.2.1 ⟨by decide, by decide⟩⟩

/-! Section: C2 — determinism of the analyses -/

/-- C2, counterexample.  On the all-black image the tear-film
interference analysis takes the "Poor" branch and draws its coverage from
`random.uniform(15, 30)`: two invocations with different PRNG states return
different coverage metrics, so the pipeline is not deterministic on the
tear-film path. -/
theorem c2_tear_film_coverage_rng_dependent :
    (analyzeTearFilmPattern blackPixelImage 0 0).coverage ≠
      (analyzeTearFilmPattern blackPixelImage (1/2) 0).coverage := by
  have hb : brightnessQ blackPixelImage < 100 := by decide
  simp only [analyzeTearFilmPattern, if_pos hb, uniformDraw]
  norm_num

/-- C2, amended.  The fluorescein staining pipeline reads no randomness
(its embedding takes no PRNG input at all, mirroring the source), and the
tear-film analysis's *grade and interpretation* are functions of the image
alone; but the tear-film *coverage and quality score* are PRNG draws, which
differ between invocations. -/
theorem c2_grade_deterministic (img : RGBImage) (u₁ u₂ : ℚ) (z₁ z₂ : ℤ) :
    (analyzeTearFilmPattern img u₁ z₁).grade =
        (analyzeTearFilmPattern img u₂ z₂).grade ∧
      (analyzeTearFilmPattern img u₁ z₁).interpretation =
        (analyzeTearFilmPattern img u₂ z₂).interpretation := by
  unfold analyzeTearFilmPattern
  split_ifs <;> exact ⟨rfl, rfl⟩

/-! Section: C3 — empty region of interest -/

/-- C3, counterexample.  The claim asserts that quantification over an
empty region of interest fails with `EmptyRegionError`.  The source instead
takes the `else` branch of `app.py` lines 248–252 and returns the
percentage value 0: the quantifier is a total function and no exception is
raised. -/
theorem c3_empty_roi_quantifies_to_zero :
    maskCount 2 2 (maskOfList []) = 0 ∧
      quantifyPercentage 2 2 (maskOfList [(0, 0)]) (maskOfList []) = 0 := by
  exact ⟨by decide, by decide⟩

/-- C3, amended.  For every mask pair whose region of interest is
empty, the quantification step returns the percentage 0 — it does not fail
(the embedding of `app.py` lines 248–252 is total). -/
theorem c3_empty_roi_returns_zero (h w : ℕ) (staining corneal : Mask)
    (hc : maskCount h w corneal = 0) :
    quantifyPercentage h w staining corneal = 0 := by
  unfold quantifyPercentage
  rw [hc]
  simp

/-- Witness for `c3_empty_roi_returns_zero` on a concrete empty ROI. -/
theorem c3_empty_roi_returns_zero_witness :
    maskCount 3 3 (maskOfList []) = 0 ∧
      quantifyPercentage 3 3 (maskOfList [(1, 1)]) (maskOfList []) = 0 :=
  ⟨by decide, c3_empty_roi_returns_zero 3 3 _ _ (by decide)⟩

/-! Section: C4 — overlay pass-through -/

/-- C4, counterexample.  The claim asserts that every pixel where the
staining mask is false passes through the renderer unchanged.  In the
source (`app.py` lines 267–272) pupil and sclera pixels are additionally
blended toward gray: on `rampImage` the pixel `(0,0)` is outside the
staining mask yet its rendered value differs from the input. -/
theorem c4_excluded_pixel_modified :
    validStaining rampImage (0, 0) = false ∧
      renderPixel rampImage (0, 0) ≠ rampImage.px (0, 0) := by
  exact ⟨by decide, by decide⟩

/-- C4, amended.  Pixels that are neither in the (valid) staining mask
nor in the pupil/sclera exclusion region pass through the primary renderer
unchanged; and pixels neither in the fallback staining mask nor in the
fallback's excluded (non-corneal) region pass through the fallback renderer
unchanged.  Mask-false pixels inside the exclusion regions are modified
(blended toward gray, resp. halved). -/
theorem c4_pass_through :
    (∀ (img : RGBImage) (p : Pos), validStaining img p = false →
      pupilMask img p = false → scleraMask img p = false →
      renderPixel img p = img.px p) ∧
    (∀ (img : RGBImage) (p : Pos), fbStainingMask img p = false →
      fbCornealMask img p = true → fbRenderPixel img p = img.px p) := by
  constructor
  · intro img p h1 h2 h3
    simp [renderPixel, h1, h2, h3]
  · intro img p h1 h2
    simp [fbRenderPixel, h1, h2]

/-- Witness for `c4_pass_through` at the pixel `(0,1)` of `rampImage`,
which lies outside every mask involved. -/
theorem c4_pass_through_witness :
    (validStaining rampImage (0, 1) = false ∧
      pupilMask rampImage (0, 1) = false ∧
      scleraMask rampImage (0, 1) = false ∧
      renderPixel rampImage (0, 1) = rampImage.px (0, 1)) ∧
    (fbStainingMask rampImage (0, 1) = false ∧
      fbCornealMask rampImage (0, 1) = true ∧
      fbRenderPixel rampImage (0, 1) = rampImage.px (0, 1)) :=
  ⟨⟨by decide, by decide, by decide,
      c4_pass_through.1 rampImage (0, 1) (by decide) (by decide) (by decide)⟩,
    ⟨by decide, by decide,
      c4_pass_through.2 rampImage (0, 1) (by decide) (by decide)⟩⟩

/-! Section: C8 — fallback control flow -/

/-- C8, counterexample.  The claim asserts that when both the primary
analysis and the fallback fail, the error propagates to the caller.  On a
non-RGB input both attempts fail, yet `analyze_fluorescein_staining`
returns `None` (`app.py` lines 359–361): the exception is swallowed, not
propagated. -/
theorem c8_double_failure_returns_none :
    (∃ e, primaryAnalysis .nonRGB = .error e) ∧
      (∃ e, fallbackAnalysis .nonRGB = .error e) ∧
      analyzeFluoresceinStaining .nonRGB = none :=
  ⟨⟨.notThreeChannel, rfl⟩, ⟨.notThreeChannel, rfl⟩, rfl⟩

/-- C8, amended.  If the primary analysis fails, exactly one fallback
is attempted (the match structure of `analyzeFluoresceinStaining`), and if
the fallback also fails the invocation returns `None` — no metrics are
produced, but the error does not propagate either. -/
theorem c8_fallback_then_none (i : UploadedImage)
    (hp : ∃ e, primaryAnalysis i = .error e)
    (hf : ∃ e, fallbackAnalysis i = .error e) :
    analyzeFluoresceinStaining i = none := by
  obtain ⟨e₁, h₁⟩ := hp
  obtain ⟨e₂, h₂⟩ := hf
  unfold analyzeFluoresceinStaining
  rw [h₁, h₂]

/-- Witness for `c8_fallback_then_none` on the non-RGB input. -/
theorem c8_fallback_then_none_witness :
    analyzeFluoresceinStaining .nonRGB = none :=
  c8_fallback_then_none .nonRGB ⟨.notThreeChannel, rfl⟩ ⟨.notThreeChannel, rfl⟩

/-! Section: C10 — totality of the interference-interpretation lookup -/

/-- C10, confirmed.  The interference-interpretation lookup maps each
of the five grades to its fixed clinical interpretation string and every
other string to `"Unable to interpret"`; it is a total function (the
embedding of the dictionary `.get` with a default, which never raises). -/
theorem c10_interpretation_total :
    getInterferenceInterpretation "Excellent" =
        "Normal lipid layer thickness and spread - healthy tear film" ∧
    getInterferenceInterpretation "Good" =
        "Mild lipid layer abnormalities - minimal evaporation" ∧
    getInterferenceInterpretation "Fair" =
        "Moderate lipid layer disruption - increased evaporation likely" ∧
    getInterferenceInterpretation "Poor" =
        "Significant lipid layer deficiency - high evaporation risk" ∧
    getInterferenceInterpretation "Very Poor" =
        "Severe lipid layer abnormalities - marked evaporative dry eye" ∧
    (∀ s : String, s ≠ "Excellent" → s ≠ "Good" → s ≠ "Fair" → s ≠ "Poor" →
      s ≠ "Very Poor" → getInterferenceInterpretation s = "Unable to interpret") := by
  refine ⟨by decide, by decide, by decide, by decide, by decide,
    fun s h1 h2 h3 h4 h5 => ?_⟩
  unfold getInterferenceInterpretation
  rw [if_neg h1, if_neg h2, if_neg h3, if_neg h4, if_neg h5]

/-- Witness for the defaulting branch of `c10_interpretation_total` at a
concrete unknown grade string. -/
theorem c10_interpretation_total_witness :
    ("Bogus" ≠ "Excellent") ∧ ("Bogus" ≠ "Good") ∧ ("Bogus" ≠ "Fair") ∧
      ("Bogus" ≠ "Poor") ∧ ("Bogus" ≠ "Very Poor") ∧
      getInterferenceInterpretation "Bogus" = "Unable to interpret" :=
  ⟨by decide, by decide, by decide, by decide, by decide,
    c10_interpretation_total.2.2.2.2.2 "Bogus" (by decide) (by decide)
      (by decide) (by decide) (by decide)⟩

/-! Section: C5 — the staining percentage can exceed 100 -/

theorem mask_eq_of_window (h w : ℕ) (f g : Mask)
    (hf : ∀ p, f p = true → inWin h w p = true)
    (hg : ∀ p, g p = true → inWin h w p = true)
    (heq : ∀ p ∈ winF h w, f p = g p) : f = g := by
  funext p
  by_cases hp : inWin h w p = true
  · exact heq p (mem_winF_iff.2 hp)
  · cases hfp : f p
    · cases hgp : g p
      · rfl
      · exact absurd (hg p hgp) hp
    · exact absurd (hf p hfp) hp

set_option maxRecDepth 8000 in
theorem c5_t10 : intensityPercentile c5Image 10 = 16200 := by decide

set_option maxRecDepth 8000 in
theorem c5_t60 : intensityPercentile c5Image 60 = 18000 := by decide

set_option maxRecDepth 8000 in
theorem c5_t85 : intensityPercentile c5Image 85 = 36975 := by decide

set_option maxRecDepth 8000 in
theorem c5_candidates : stainingCandidates c5Image = c5Green := by
  unfold stainingCandidates
  rw [c5_t60, c5_t10, c5_t85]
  refine mask_eq_of_window 20 20 _ _ ?_ ?_ (by decide)
  · intro p hp
    simp only [stainingCandidatesT, Bool.and_eq_true] at hp
    exact hp.1.1.1.1
  · intro p hp
    simp only [c5Green, Bool.and_eq_true] at hp
    exact hp.1

set_option maxRecDepth 8000 in
theorem c5_dilate_green : dilateB 20 20 c5Green = c5Full := by
  refine mask_eq_of_window 20 20 _ _ ?_ ?_ (by decide)
  · exact fun p hp => dilateB_inWin hp
  · exact fun p hp => hp

theorem c5I18_inWin : ∀ p, c5I18 p = true → inWin 20 20 p = true := by
  intro p hp
  unfold c5I18 at hp
  unfold inWin
  rw [decide_eq_true_iff] at hp ⊢
  omega

theorem c5I16_inWin : ∀ p, c5I16 p = true → inWin 20 20 p = true := by
  intro p hp
  unfold c5I16 at hp
  unfold inWin
  rw [decide_eq_true_iff] at hp ⊢
  omega

theorem c5OC_inWin : ∀ p, c5OC p = true → inWin 20 20 p = true := by
  intro p hp
  unfold c5OC at hp
  unfold inWin
  rw [decide_eq_true_iff] at hp ⊢
  omega

set_option maxRecDepth 8000 in
theorem c5_closing : closingB 20 20 c5Green = c5I18 := by
  unfold closingB
  rw [c5_dilate_green]
  refine mask_eq_of_window 20 20 _ _ ?_ ?_ (by decide)
  · exact fun p hp => erodeB_le p hp
  · exact c5I18_inWin

set_option maxRecDepth 8000 in
theorem c5_erode_i18 : erodeB c5I18 = c5I16 := by
  refine mask_eq_of_window 20 20 _ _ ?_ ?_ (by decide)
  · exact fun p hp => c5I18_inWin p (erodeB_le p hp)
  · exact c5I16_inWin

set_option maxRecDepth 8000 in
theorem c5_opening : openingB 20 20 c5I18 = c5OC := by
  unfold openingB
  rw [c5_erode_i18]
  refine mask_eq_of_window 20 20 _ _ ?_ ?_ (by decide)
  · exact fun p hp => dilateB_inWin hp
  · exact c5OC_inWin

/-- A horizontal run of `k` mask pixels all lies inside the component of
any of its members. -/
theorem run_subset_compo {m : Mask} {h w : ℕ}
    (hm : ∀ q, m q = true → inWin h w q = true) {i : ℤ} (c : ℤ) (k : ℕ)
    (hk : ∀ t : ℕ, t < k → m (i, c + t) = true) {j : ℤ} (hj1 : c ≤ j)
    (hj2 : j < c + k) : ∀ t : ℕ, t < k → (i, c + t) ∈ compo delta4 h w m (i, j) := by
  have hrun : ∀ t : ℕ, t < k → reaches delta4 m (i, c) (i, c + t) := by
    intro t
    induction t with
    | zero =>
      intro _
      have hcc : ((i, c + (0 : ℕ)) : Pos) = (i, c) := by
        simp
      rw [hcc]
      exact Relation.ReflTransGen.refl
    | succ t ih =>
      intro ht
      have ht' : t < k := Nat.lt_of_succ_lt ht
      have h1 : m (i, c + t) = true := hk t ht'
      have h2 : m (i, c + (t + 1 : ℕ)) = true := hk (t + 1) ht
      have hstep : ((i, c + (t + 1 : ℕ)) : Pos) ∈ nbrsOf delta4 (i, c + t) := by
        refine List.mem_map.2 ⟨(0, 1), by simp [delta4], ?_⟩
        simp only [Prod.ext_iff]
        constructor
        · omega
        · push_cast
          omega
      exact (ih ht').tail ⟨h1, h2, hstep⟩
  have hjm : m (i, j) = true := by
    have hjt : j = c + ((j - c).toNat : ℤ) := by omega
    have : (j - c).toNat < k := by omega
    rw [hjt]
    exact hk _ this
  have hjreach : reaches delta4 m (i, j) (i, c) := by
    have hjt : j = c + ((j - c).toNat : ℤ) := by omega
    have hlt : (j - c).toNat < k := by omega
    have := hrun (j - c).toNat hlt
    rw [← hjt] at this
    exact reaches_symm (fun _ _ => nbrsOf_delta4_symm) this
  intro t ht
  rw [mem_compo_iff_reaches hm hjm]
  exact hjreach.trans (hrun t ht)

/-- A horizontal run of `k` mask pixels forces the component of any of its
members to have at least `k` pixels. -/
theorem compo_card_ge_of_run {m : Mask} {h w : ℕ}
    (hm : ∀ q, m q = true → inWin h w q = true) {i : ℤ} (c : ℤ) (k : ℕ)
    (hk : ∀ t : ℕ, t < k → m (i, c + t) = true) {j : ℤ} (hj1 : c ≤ j)
    (hj2 : j < c + k) : k ≤ (compo delta4 h w m (i, j)).card := by
  have hsub : (Finset.range k).image (fun t : ℕ => ((i, c + t) : Pos)) ⊆
      compo delta4 h w m (i, j) := by
    intro q hq
    obtain ⟨t, ht, rfl⟩ := Finset.mem_image.1 hq
    exact run_subset_compo hm c k hk hj1 hj2 t (Finset.mem_range.1 ht)
  have hcard : ((Finset.range k).image (fun t : ℕ => ((i, c + t) : Pos))).card
      = k := by
    rw [Finset.card_image_of_injOn, Finset.card_range]
    intro a _ b _ hab
    simp only [Prod.ext_iff] at hab
    omega
  calc k = ((Finset.range k).image (fun t : ℕ => ((i, c + t) : Pos))).card :=
        hcard.symm
    _ ≤ (compo delta4 h w m (i, j)).card := Finset.card_le_card hsub

/-- Small-component removal keeps the whole refined mask of `c5Image`: its
single component has 320 pixels, far above the floor of 10. -/
theorem c5_remove_oc : removeSmall 20 20 c5OC = c5OC := by
  funext p
  apply bool_eq_of_iff
  constructor
  · intro hp
    exact removeSmall_le hp
  · intro hp
    show (c5OC p && decide (max 10000 (20 * 20) ≤ 1000 *
      (compo delta4 20 20 c5OC p).card)) = true
    rw [hp]
    simp only [Bool.true_and, decide_eq_true_eq]
    have hcard : 10 ≤ (compo delta4 20 20 c5OC p).card := by
      obtain ⟨i, j⟩ := p
      have hp' : (1 ≤ i ∧ i ≤ 18 ∧ 2 ≤ j ∧ j ≤ 17) ∨
          (2 ≤ i ∧ i ≤ 17 ∧ 1 ≤ j ∧ j ≤ 18) := by
        have := hp
        unfold c5OC at this
        exact of_decide_eq_true this
      rcases hp' with ⟨h1, h2, h3, h4⟩ | ⟨h1, h2, h3, h4⟩
      · refine compo_card_ge_of_run c5OC_inWin
          (c := max 2 (min j 8)) (k := 10) ?_ ?_ ?_
        · intro t ht
          unfold c5OC
          rw [decide_eq_true_iff]
          left
          refine ⟨h1, h2, ?_, ?_⟩ <;> omega
        · omega
        · omega
      · refine compo_card_ge_of_run c5OC_inWin
          (c := max 1 (min j 9)) (k := 10) ?_ ?_ ?_
        · intro t ht
          unfold c5OC
          rw [decide_eq_true_iff]
          right
          refine ⟨h1, h2, ?_, ?_⟩ <;> omega
        · omega
        · omega
    omega

theorem c5_refined : refinedStainingMask c5Image = c5OC := by
  show removeSmall 20 20 (openingB 20 20 (closingB 20 20
    (stainingCandidates c5Image))) = c5OC
  rw [c5_candidates, c5_closing, c5_opening, c5_remove_oc]

set_option maxRecDepth 8000 in
theorem c5_refined_count : maskCount 20 20 c5OC = 320 := by decide

set_option maxRecDepth 8000 in
theorem c5_corneal_count : maskCount 20 20 (cornealMask c5Image) = 300 := by
  have hrw : cornealMask c5Image = fun p =>
      inWin 20 20 p && !pupilMaskT c5Image 16200 p &&
        !scleraMaskT c5Image 36975 p := by
    funext p
    simp only [cornealMask, pupilMask, scleraMask, c5_t10, c5_t85]
    rfl
  rw [hrw]
  decide

/-- C5, code bug.  On `c5Image` the refined staining mask (320 pixels,
the numerator of `app.py` line 249–250, counted over the whole image) is
larger than the corneal region (300 pixels, the denominator), because
morphological closing expands the candidate mask — which is confined to the
corneal region — into the pupil and sclera pixels.  The staining percentage
is `320/3 ≈ 106.7 > 100`, violating the claimed `[0, 100]` bound (and the
source's own comment "Calculate staining percentage ONLY in corneal
area"). -/
theorem c5_percentage_exceeds_100 :
    stainingPercentage c5Image = 320 / 3 ∧ 100 < stainingPercentage c5Image := by
  have h : stainingPercentage c5Image = 320 / 3 := by
    show (if 0 < maskCount 20 20 (cornealMask c5Image) then
        100 * (maskCount 20 20 (refinedStainingMask c5Image) : ℚ) /
          (maskCount 20 20 (cornealMask c5Image) : ℚ)
      else 0) = 320 / 3
    rw [c5_refined, c5_refined_count, c5_corneal_count]
    rw [if_pos (by norm_num)]
    norm_num
  refine ⟨h, ?_⟩
  rw [h]
  norm_num

end TearFilm
